import Mathlib

/-!
Shallow embedding of the candidate-consistency engine of the
playing_with_wordle repository (wordle1.py, wordle1stats.py, wordle3stats.py,
wordle4stats.py, wstats.py), together with proofs about the grading function
grade_word, the consistency predicate is_possible and the reduction
reduce_word_list.

Words are modelled as lists of characters.  Python's in-place list mutation is
modelled by structural recursion that rebuilds the list with the mutated
cells; the module-level variable guess read by is_possible is modelled as an
explicit extra argument.
-/

/-- A graded guess: the dictionary produced by grade_word, holding the guessed
word and the grade string (wordle1.py lines 142-145). -/
structure GuessResult where
  guess : List Char
  grade : List Char
deriving DecidableEq, Repr

/-- Lowercase-letter test: dictionary words consist of letters a..z. -/
def isLow (c : Char) : Bool := 'a' ≤ c && c ≤ 'z'

/-- A word all of whose characters are lowercase letters. -/
def LowWord (w : List Char) : Prop := ∀ c ∈ w, isLow c = true

instance : DecidablePred LowWord := fun w => List.decidableBAll _ w

/-- First pass of grade_word (wordle1.py lines 131-134): positions where the
answer and the guess hold the same character get the mark 2 in the guess list,
and the answer cell is overwritten by the integer 0 (a non-character sentinel,
modelled as none). -/
def pass1 : List Char → List Char → List (Option Char) × List Char
  | a :: as, g :: gs =>
    let r := pass1 as gs
    if a = g then (none :: r.1, '2' :: r.2) else (some a :: r.1, g :: r.2)
  | _, _ => ([], [])

/-- Inner loop of the second pass of grade_word (wordle1.py lines 137-140):
the first cell of the guess list equal to the answer character c is
overwritten by the mark 1; after the first hit the answer cell is zeroed, so
later cells cannot match again. -/
def markFirst (c : Char) : List Char → List Char
  | [] => []
  | g :: gs => if c = g then '1' :: gs else g :: markFirst c gs

/-- Second pass of grade_word (wordle1.py lines 136-140): every surviving
answer character marks, in answer order, the first matching cell of the guess
list with a 1. -/
def pass2 (ans : List (Option Char)) (g : List Char) : List Char :=
  ans.foldl (fun acc a =>
    match a with
    | some c => markFirst c acc
    | none => acc) g

/-- grade_word of wordle1stats.py (lines 99-130): the pure two-pass grader,
returning the guess together with the grade string. -/
def grade_word (answer guess : List Char) : GuessResult :=
  { guess := guess, grade := pass2 (pass1 answer guess).1 (pass1 answer guess).2 }

/-- Outcome of the dictionary-checking grade_word variants: either a graded
guess, or the NameError raised by the statement return false (wordle1.py line
126), whose name false is undefined in Python. -/
inductive GradeOutcome where
  | ok : GuessResult → GradeOutcome
  | nameError : GradeOutcome
deriving DecidableEq, Repr

/-- grade_word of wordle1.py (lines 108-145) and wstats.py (lines 122-159):
first consults the word hash; when the guess is absent the function never
produces a grade, because the statement return false raises NameError. -/
def grade_word_wh (answer guess : List Char) (wordhash : List (List Char)) :
    GradeOutcome :=
  if guess ∈ wordhash then GradeOutcome.ok (grade_word answer guess)
  else GradeOutcome.nameError

/-- First loop of is_possible (wordle1.py lines 29-36): at every position
graded 2 the guess letter must line up with the candidate word; matched cells
are consumed, the word cell with the marker char and the guess cell with an
at-sign.  Returns none when the loop returns False. -/
def phaseA : List Char → List Char → List Char → Option (List Char × List Char)
  | g :: gs, d :: ds, w :: ws =>
    if d = '2' then
      if g ≠ w then none
      else
        match phaseA gs ds ws with
        | none => none
        | some r => some ('@' :: r.1, '!' :: r.2)
    else
      match phaseA gs ds ws with
      | none => none
      | some r => some (g :: r.1, w :: r.2)
  | _, _, _ => some ([], [])

/-- Consumption step of the second loop of is_possible (wordle1.py lines
47-51): the first cell of the word list equal to the guess letter is
overwritten with an exclamation mark, then the scan breaks. -/
def consume (c : Char) : List Char → List Char
  | [] => []
  | w :: ws => if c = w then '!' :: ws else w :: consume c ws

/-- Second loop of is_possible (wordle1.py lines 38-55), processing position i
onwards: a position graded 1 must find its letter somewhere else in the word
and consumes it; a position graded neither 1 nor an asterisk rejects the word
when its letter is still present. -/
def phaseB : List (Char × Char) → List Char → Nat → Bool
  | [], _, _ => true
  | (g, d) :: rest, wl, i =>
    if d = '1' then
      if g = wl.getD i '?' then false
      else if g ∈ wl then phaseB rest (consume g wl) (i + 1)
      else false
    else if d ≠ '*' then
      if g ∈ wl then false
      else phaseB rest wl (i + 1)
    else phaseB rest wl (i + 1)

/-- is_possible (wordle1.py lines 15-57).  The final statement reads the
module-level variable guess (wordle1.py line 57), modelled here as the
explicit argument guessGlobal: the word survives only when it differs from
that variable. -/
def is_possible (word : List Char) (result : GuessResult)
    (guessGlobal : List Char) : Bool :=
  match phaseA result.guess result.grade word with
  | none => false
  | some r =>
    if phaseB (r.1.zip result.grade) r.2 0 then decide (word ≠ guessGlobal)
    else false

/-- reduce_word_list (wordle1.py lines 61-71, wordle1stats.py lines 61-69):
keeps exactly the words for which is_possible holds, in order.  The print in
wordle1.py is I/O only. -/
def reduce_word_list (wordlist : List (List Char)) (result : GuessResult)
    (guessGlobal : List Char) : List (List Char) :=
  wordlist.filter (fun w => is_possible w result guessGlobal)

/-- The result dictionary of grade_word in wordle3stats.py / wordle4stats.py:
guess, grade, and the possible-letters list the function mutated. -/
structure GuessResult3 where
  guess : List Char
  grade : List Char
  possible : List Bool
deriving DecidableEq, Repr

/-- Letter-elimination loop of grade_word in wordle3stats.py (lines 178-180)
and wordle4stats.py (lines 149-151).  The loop reuses the stale index j left
by the preceding pass (its final value is len(answer) - 1), so every
iteration inspects the same graded cell; when that cell is an unmarked letter
(compares above the character 2) the corresponding possible_letters entry is
set to False, identically on every iteration. -/
def updatePossible (gradelist : List Char) (answerLen guessLen : Nat)
    (pl : List Bool) : List Bool :=
  if guessLen = 0 then pl
  else
    let gj := gradelist.getD (answerLen - 1) '?'
    if '2' < gj then pl.set (gj.toNat - 97) false else pl

/-- grade_word of wordle3stats.py (lines 144-186) and wordle4stats.py (lines
115-157): the same two-pass grade preceded by the word-hash check, followed by
the stale-index mutation of possible_letters; the mutated list is also
returned under the key possible. -/
def grade_word3 (answer guess : List Char) (wordhash : List (List Char))
    (pl : List Bool) : Option GuessResult3 :=
  if guess ∈ wordhash then
    some { guess := guess
           grade := (grade_word answer guess).grade
           possible := updatePossible (grade_word answer guess).grade
             answer.length guess.length pl }
  else none

/-- Exact-plus-present mark count of a letter in a graded guess: the number of
positions where the guess holds that letter and the grade shows the mark 2,
plus those where it shows the mark 1. -/
def marksFor (l : Char) (guess grade : List Char) : Nat :=
  (guess.zip grade).count (l, '2') + (guess.zip grade).count (l, '1')

/-! ### Ghost definitions used only by the proofs

The second grading pass mutates the guess list in place, losing the original
letters of the marked cells.  For the proofs we shadow every cell with its
original letter: a ghost state is a list of pairs (original guess letter,
current cell).  The real pass is the image of the ghost pass under mapping
each pair to its second component. -/

/-- Ghost variant of markFirst acting on (original letter, current cell)
pairs. -/
def markFirstP (c : Char) : List (Char × Char) → List (Char × Char)
  | [] => []
  | p :: ps => if c = p.2 then (p.1, '1') :: ps else p :: markFirstP c ps

/-- Ghost variant of pass2. -/
def pass2P (A : List (Option Char)) (Z : List (Char × Char)) :
    List (Char × Char) :=
  A.foldl (fun acc a =>
    match a with
    | some c => markFirstP c acc
    | none => acc) Z

/-- Pointwise relation between the position pair (answer letter, guess
letter) and the ghost cell (guess letter, mark) reachable during the second
grading pass: the mark is 2 exactly on agreeing positions, and otherwise is
either 1 or still the guess letter. -/
def Master (p q : Char × Char) : Prop :=
  q.1 = p.2 ∧ isLow p.1 = true ∧ isLow p.2 = true ∧
    ((q.2 = '2' ∧ p.1 = p.2) ∨ (q.2 = '1' ∧ p.1 ≠ p.2) ∨
      (q.2 = p.2 ∧ p.1 ≠ p.2))

/-- The same relation at the start of the second pass, before any cell was
marked 1. -/
def MasterI (p q : Char × Char) : Prop :=
  q.1 = p.2 ∧ isLow p.1 = true ∧ isLow p.2 = true ∧
    ((q.2 = '2' ∧ p.1 = p.2) ∨ (q.2 = p.2 ∧ p.1 ≠ p.2))

/-- How the first loop of is_possible rewrites a graded cell: Exact cells
become the consumed pair, other cells are kept. -/
def phiMark (p : Char × Char) : Char × Char :=
  if p.2 = '2' then ('@', '2') else p

/-- Cell of the guess list as modelled by mark2Guess at one position. -/
def mark2Guess (g d : Char) : Char :=
  if d = '2' then '@' else g

/-- Cell of the word list after the first loop of is_possible. -/
def mark2Word (a d : Char) : Char :=
  if d = '2' then '!' else a

/-- Well-formed pair reaching the second loop of is_possible: a consumed
Exact cell, a Present mark over a letter, or an unmarked letter cell. -/
def wfPair (p : Char × Char) : Prop :=
  p = ('@', '2') ∨ (p.2 = '1' ∧ isLow p.1 = true) ∨
    (p.2 = p.1 ∧ isLow p.1 = true)

/-- The cells of a ghost state whose original letter is l, Exact cells
excluded. -/
def filtL (l : Char) (Z : List (Char × Char)) : List (Char × Char) :=
  Z.filter (fun p => decide (p.1 = l ∧ p.2 ≠ '2'))

/-- Per-letter budget check: scanning the graded pairs left to right, every
Present mark over the letter l consumes one unit of the budget m, and an
unmarked (Absent) cell of letter l requires the budget to be exhausted. -/
def OKp (l : Char) : List (Char × Char) → Nat → Prop
  | [], _ => True
  | (g, d) :: rest, m =>
    if d = '2' then OKp l rest m
    else if g = l ∧ d = '1' then m ≠ 0 ∧ OKp l rest (m - 1)
    else if g = l ∧ d = l then m = 0 ∧ OKp l rest m
    else OKp l rest m

/-- A ghost cell reachable during the second grading pass: marked 2, marked
1, or still holding its own lowercase letter. -/
def okCell (q : Char × Char) : Prop :=
  q.2 = '2' ∨ q.2 = '1' ∨ (q.2 = q.1 ∧ isLow q.1 = true)

/-- Invariant that makes the second loop of is_possible accept: Present cells
find their letter in the word list and consume it, all other non-asterisk
cells are absent from it. -/
def INV : List (Char × Char) → List Char → Prop
  | [], _ => True
  | (g, d) :: rest, wl =>
    if d = '1' then g ∈ wl ∧ INV rest (consume g wl)
    else if d = '*' then INV rest wl
    else g ∉ wl ∧ INV rest wl

/-! ### Elementary unfolding lemmas -/

theorem pass2_nil (g : List Char) : pass2 [] g = g := rfl

theorem pass2_cons_some (c : Char) (A : List (Option Char)) (g : List Char) :
    pass2 (some c :: A) g = pass2 A (markFirst c g) := rfl

theorem pass2_cons_none (A : List (Option Char)) (g : List Char) :
    pass2 (none :: A) g = pass2 A g := rfl

theorem pass1_self (w : List Char) :
    pass1 w w = (List.replicate w.length none, List.replicate w.length '2') := by
  induction w with
  | nil => rfl
  | cons a as ih => simp [pass1, ih, List.replicate]

theorem pass2_replicate_none (n : Nat) (g : List Char) :
    pass2 (List.replicate n none) g = g := by
  induction n with
  | zero => rfl
  | succ n ih => simpa [List.replicate, pass2_cons_none] using ih

/-! ### C5: grading a word against itself is all-Exact -/

/-- C5: for every word of length five present in the dictionary hash, grading
the word against itself yields the all-Exact grade string 22222. -/
theorem C5_self_grade_all_exact (w : List Char) (wh : List (List Char))
    (hmem : w ∈ wh) (hlen : w.length = 5) :
    grade_word_wh w w wh =
      GradeOutcome.ok { guess := w, grade := ['2', '2', '2', '2', '2'] } := by
  simp only [grade_word_wh, if_pos hmem, grade_word, pass1_self,
    pass2_replicate_none, hlen]
  rfl

/-- C5 witness: the concrete dictionary word abbey grades against itself as
22222. -/
theorem C5_witness :
    (['a', 'b', 'b', 'e', 'y'] ∈ [['a', 'b', 'b', 'e', 'y']]) ∧
    grade_word_wh ['a', 'b', 'b', 'e', 'y'] ['a', 'b', 'b', 'e', 'y']
        [['a', 'b', 'b', 'e', 'y']] =
      GradeOutcome.ok { guess := ['a', 'b', 'b', 'e', 'y'],
                        grade := ['2', '2', '2', '2', '2'] } :=
  ⟨by decide, C5_self_grade_all_exact _ _ (by decide) (by decide)⟩

/-! ### C3: a candidate equal to the guessed word is always rejected -/

/-- C3 counterexample: with the guess abbey graded all-Exact (and the
module-level guess variable holding that same word, as at every call site),
the candidate abbey is rejected by is_possible, although the claim says a
candidate identical to the guess remains possible when the grade is
all-Exact. -/
theorem C3_counterexample :
    is_possible ['a', 'b', 'b', 'e', 'y']
      { guess := ['a', 'b', 'b', 'e', 'y'], grade := ['2', '2', '2', '2', '2'] }
      ['a', 'b', 'b', 'e', 'y'] = false := by decide

/-- C3 amended: a candidate word equal to the module-level guess variable (in
the program this variable always holds the guess recorded in the result) is
rejected by is_possible whatever the grade, because of the final comparison
word != guess; in particular even an all-Exact grade does not let the
identical candidate survive. -/
theorem C3_self_candidate_rejected (w : List Char) (r : GuessResult) :
    is_possible w r w = false := by
  unfold is_possible
  cases phaseA r.guess r.grade w with
  | none => rfl
  | some p => simp

/-- C3 witness: concrete instance of the amended statement. -/
theorem C3_witness :
    is_possible ['c', 'r', 'a', 'n', 'e']
      { guess := ['c', 'r', 'a', 'n', 'e'], grade := ['2', '1', 'a', 'n', 'e'] }
      ['c', 'r', 'a', 'n', 'e'] = false :=
  C3_self_candidate_rejected _ _

/-! ### C6: is_possible reads the module-level guess variable -/

/-- C6 counterexample: two calls of is_possible with the same candidate and
the same GuessResult give different booleans when the module-level variable
guess differs, refuting the claim that the result does not depend on it. -/
theorem C6_counterexample :
    is_possible ['c', 'r', 'a', 'n', 'e']
        { guess := ['c', 'r', 'a', 'n', 'e'], grade := ['2', '2', '2', '2', '2'] }
        ['c', 'r', 'a', 'n', 'e'] ≠
      is_possible ['c', 'r', 'a', 'n', 'e']
        { guess := ['c', 'r', 'a', 'n', 'e'], grade := ['2', '2', '2', '2', '2'] }
        ['x', 'x', 'x', 'x', 'x'] := by decide

/-- C6 amended: is_possible is a pure function of the candidate, the
GuessResult and the module-level variable guess, and it depends on the latter
only through whether the candidate equals it: two calls with the same
candidate and result agree whenever that equality test agrees (in particular
whenever the module-level guess is unchanged between the calls). -/
theorem C6_pure_given_global (w : List Char) (r : GuessResult)
    (g₁ g₂ : List Char) (h : (w = g₁) ↔ (w = g₂)) :
    is_possible w r g₁ = is_possible w r g₂ := by
  unfold is_possible
  cases phaseA r.guess r.grade w with
  | none => rfl
  | some p => simp [h]

/-- C6 witness: concrete instance of the amended statement. -/
theorem C6_witness :
    is_possible ['c', 'r', 'a', 'n', 'e']
        { guess := ['c', 'r', 'a', 'n', 'e'], grade := ['2', '2', '2', '2', '2'] }
        ['x', 'x', 'x', 'x', 'x'] =
      is_possible ['c', 'r', 'a', 'n', 'e']
        { guess := ['c', 'r', 'a', 'n', 'e'], grade := ['2', '2', '2', '2', '2'] }
        ['y', 'y', 'y', 'y', 'y'] :=
  C6_pure_given_global _ _ _ _ (by decide)

/-! ### C8: the grader itself validates dictionary membership -/

/-- C8 counterexample: an equal-length pair whose guess is outside the word
hash makes grade_word of wordle1.py consult the membership set and fail with
NameError instead of computing a grade, refuting the claim that the core
grader does not perform dictionary-membership validation. -/
theorem C8_counterexample :
    (['z', 'z', 'z', 'z', 'z'] : List Char).length =
        (['a', 'b', 'b', 'e', 'y'] : List Char).length ∧
    grade_word_wh ['a', 'b', 'b', 'e', 'y'] ['z', 'z', 'z', 'z', 'z']
        [['a', 'b', 'b', 'e', 'y']] = GradeOutcome.nameError := by decide

/-- C8 amended: grade_word of wordle1.py and wstats.py performs the
dictionary-membership validation itself: a member guess is graded by the pure
two-pass grader, a non-member guess makes the function fail (NameError from
the undefined name false) before any grade is produced. -/
theorem C8_membership_checked_inside (a g : List Char)
    (wh : List (List Char)) :
    (g ∈ wh → grade_word_wh a g wh = GradeOutcome.ok (grade_word a g)) ∧
    (g ∉ wh → grade_word_wh a g wh = GradeOutcome.nameError) := by
  constructor <;> intro h <;> simp [grade_word_wh, h]

/-- C8 witness: concrete instance of the amended statement. -/
theorem C8_witness :
    grade_word_wh ['a', 'b', 'b', 'e', 'y'] ['z', 'z', 'z', 'z', 'z']
        [['a', 'b', 'b', 'e', 'y']] = GradeOutcome.nameError :=
  (C8_membership_checked_inside ['a', 'b', 'b', 'e', 'y']
    ['z', 'z', 'z', 'z', 'z'] [['a', 'b', 'b', 'e', 'y']]).2 (by decide)

/-! ### C10: unknown guesses raise NameError, no grade is produced -/

/-- C10: when the guess is not in the word hash, grade_word never returns a
value at all, let alone the boolean False promised by its docstring: the
statement return false references an undefined name and raises NameError
(modelled by the nameError outcome), so no grade is produced. -/
theorem C10_unknown_guess_name_error (a g : List Char)
    (wh : List (List Char)) (h : g ∉ wh) :
    grade_word_wh a g wh = GradeOutcome.nameError ∧
    ∀ r, grade_word_wh a g wh ≠ GradeOutcome.ok r := by
  refine ⟨by simp [grade_word_wh, h], ?_⟩
  intro r
  simp [grade_word_wh, h]

/-- C10 witness: concrete instance. -/
theorem C10_witness :
    grade_word_wh ['a', 'b', 'b', 'e', 'y'] ['z', 'z', 'z', 'z', 'z']
        [['a', 'b', 'b', 'e', 'y']] = GradeOutcome.nameError ∧
    ∀ r, grade_word_wh ['a', 'b', 'b', 'e', 'y'] ['z', 'z', 'z', 'z', 'z']
        [['a', 'b', 'b', 'e', 'y']] ≠ GradeOutcome.ok r :=
  C10_unknown_guess_name_error _ _ _ (by decide)

/-! ### C4: reduction is an order-preserving filter -/

/-- C4: reduce_word_list returns exactly the elements of the input list for
which is_possible holds, in their original relative order (it is a sublist);
its length never exceeds the input length, and iterating the reduction never
re-admits a previously excluded word. -/
theorem C4_reduce_is_filter (S : List (List Char)) (r : GuessResult)
    (g : List Char) :
    (∀ w, w ∈ reduce_word_list S r g ↔ w ∈ S ∧ is_possible w r g = true) ∧
    (reduce_word_list S r g).Sublist S ∧
    (reduce_word_list S r g).length ≤ S.length ∧
    (∀ r' g', reduce_word_list (reduce_word_list S r g) r' g' ⊆
      reduce_word_list S r g) := by
  refine ⟨?_, ?_, ?_, ?_⟩
  · intro w
    simp [reduce_word_list, List.mem_filter]
  · exact List.filter_sublist S
  · exact List.length_filter_le _ S
  · intro r' g'
    exact (List.filter_sublist _).subset

/-- C4 witness: concrete instance. -/
theorem C4_witness :
    (∀ w, w ∈ reduce_word_list [['a', 'b'], ['b', 'b']]
          { guess := ['b', 'b'], grade := ['b', '2'] } ['b', 'b'] ↔
        w ∈ [['a', 'b'], ['b', 'b']] ∧
        is_possible w { guess := ['b', 'b'], grade := ['b', '2'] }
          ['b', 'b'] = true) ∧
    (reduce_word_list [['a', 'b'], ['b', 'b']]
        { guess := ['b', 'b'], grade := ['b', '2'] } ['b', 'b']).Sublist
      [['a', 'b'], ['b', 'b']] ∧
    (reduce_word_list [['a', 'b'], ['b', 'b']]
        { guess := ['b', 'b'], grade := ['b', '2'] } ['b', 'b']).length ≤
      ([['a', 'b'], ['b', 'b']] : List (List Char)).length ∧
    (∀ r' g', reduce_word_list (reduce_word_list [['a', 'b'], ['b', 'b']]
          { guess := ['b', 'b'], grade := ['b', '2'] } ['b', 'b']) r' g' ⊆
      reduce_word_list [['a', 'b'], ['b', 'b']]
        { guess := ['b', 'b'], grade := ['b', '2'] } ['b', 'b']) :=
  C4_reduce_is_filter _ _ _

/-! ### C7: the later grader variants mutate possible_letters -/

/-- C7 counterexample: grading cruel against abbey in the wordle3stats and
wordle4stats variants sets entry 11 (letter l) of possible_letters to False:
the argument list is not left unchanged, refuting the claim. -/
theorem C7_counterexample :
    (grade_word3 ['a', 'b', 'b', 'e', 'y'] ['c', 'r', 'u', 'e', 'l']
        [['c', 'r', 'u', 'e', 'l']] (List.replicate 26 true)).map
      GuessResult3.possible =
      some ((List.replicate 26 true).set 11 false) ∧
    (List.replicate 26 true).set 11 false ≠ List.replicate 26 true := by decide

/-- C7 amended: grade_word of wordle3stats.py and wordle4stats.py uses no
randomness and leaves answer, guess and wordhash unchanged, but it does
mutate possible_letters: at most one entry of the list is set to False (the
entry of the letter found at the stale index len(answer)-1 of the graded
guess list, whenever that cell is an unmarked letter); the mutated list is
also returned under the key possible. -/
theorem C7_possible_letters_frame (a g : List Char) (wh : List (List Char))
    (pl : List Bool) (r : GuessResult3) (h : grade_word3 a g wh pl = some r) :
    r.guess = g ∧ r.grade = (grade_word a g).grade ∧
    (r.possible = pl ∨ ∃ k, r.possible = pl.set k false) := by
  by_cases hm : g ∈ wh
  · simp only [grade_word3, if_pos hm, Option.some.injEq] at h
    subst h
    refine ⟨rfl, rfl, ?_⟩
    unfold updatePossible
    by_cases h0 : g.length = 0
    · simp [h0]
    · simp only [if_neg h0]
      split
      · exact Or.inr ⟨_, rfl⟩
      · exact Or.inl rfl
  · simp [grade_word3, hm] at h

/-- C7 witness: concrete instance of the amended statement. -/
theorem C7_witness :
    GuessResult3.guess
        { guess := ['c', 'r', 'u', 'e', 'l'],
          grade := ['c', 'r', 'u', '2', 'l'],
          possible := (List.replicate 26 true).set 11 false } =
      ['c', 'r', 'u', 'e', 'l'] ∧
    GuessResult3.grade
        { guess := ['c', 'r', 'u', 'e', 'l'],
          grade := ['c', 'r', 'u', '2', 'l'],
          possible := (List.replicate 26 true).set 11 false } =
      (grade_word ['a', 'b', 'b', 'e', 'y'] ['c', 'r', 'u', 'e', 'l']).grade ∧
    (GuessResult3.possible
        { guess := ['c', 'r', 'u', 'e', 'l'],
          grade := ['c', 'r', 'u', '2', 'l'],
          possible := (List.replicate 26 true).set 11 false } =
        List.replicate 26 true ∨
      ∃ k, GuessResult3.possible
        { guess := ['c', 'r', 'u', 'e', 'l'],
          grade := ['c', 'r', 'u', '2', 'l'],
          possible := (List.replicate 26 true).set 11 false } =
        (List.replicate 26 true).set k false) :=
  C7_possible_letters_frame ['a', 'b', 'b', 'e', 'y'] ['c', 'r', 'u', 'e', 'l']
    [['c', 'r', 'u', 'e', 'l']] (List.replicate 26 true) _ (by decide)

/-! ### C1 and C9 counterexamples (their positive parts come later) -/

/-- C1 counterexample: for the equal-length pair answer = guess = abbey with
the guess in the dictionary, is_possible rejects the true answer on its own
guess result (the final word != guess comparison fires), refuting the claim
that the true answer always survives. -/
theorem C1_counterexample :
    (['a', 'b', 'b', 'e', 'y'] ∈ [['a', 'b', 'b', 'e', 'y']]) ∧
    grade_word_wh ['a', 'b', 'b', 'e', 'y'] ['a', 'b', 'b', 'e', 'y']
        [['a', 'b', 'b', 'e', 'y']] =
      GradeOutcome.ok
        (grade_word ['a', 'b', 'b', 'e', 'y'] ['a', 'b', 'b', 'e', 'y']) ∧
    is_possible ['a', 'b', 'b', 'e', 'y']
      (grade_word ['a', 'b', 'b', 'e', 'y'] ['a', 'b', 'b', 'e', 'y'])
      ['a', 'b', 'b', 'e', 'y'] = false := by decide

/-- C9 counterexample: two grades both showing an Absent position serialize
it with different characters (the guessed letter), so there is no single
fixed third symbol for Absent, refuting the three-fixed-symbols claim. -/
theorem C9_counterexample :
    (grade_word ['a', 'b', 'b', 'e', 'y'] ['b', 'b', 'b', 'b', 'b']).grade.getD
        0 '?' ≠
      (grade_word ['b', 'b', 'b', 'b', 'b'] ['a', 'a', 'a', 'a', 'a']).grade.getD
        0 '?' ∧
    (grade_word ['a', 'b', 'b', 'e', 'y'] ['b', 'b', 'b', 'b', 'b']).grade.getD
        0 '?' ∉ (['1', '2'] : List Char) ∧
    (grade_word ['b', 'b', 'b', 'b', 'b'] ['a', 'a', 'a', 'a', 'a']).grade.getD
        0 '?' ∉ (['1', '2'] : List Char) := by decide

/-! ### Generic helper lemmas -/

theorem isLow_ne_of {c x : Char} (h : isLow c = true) (hx : isLow x = false) :
    c ≠ x := by
  intro he
  subst he
  rw [h] at hx
  cases hx

theorem forall2_mem_right {α β : Type} {R : α → β → Prop} :
    ∀ {l₁ : List α} {l₂ : List β}, List.Forall₂ R l₁ l₂ →
      ∀ b ∈ l₂, ∃ a ∈ l₁, R a b := by
  intro l₁ l₂ h
  induction h with
  | nil =>
    intro b hb
    cases hb
  | cons hr _ ih =>
    intro b hb
    rcases List.mem_cons.mp hb with rfl | hb
    · exact ⟨_, List.mem_cons_self _ _, hr⟩
    · obtain ⟨a, ha, hR⟩ := ih b hb
      exact ⟨a, List.mem_cons_of_mem _ ha, hR⟩

theorem forall2_getD {α β : Type} {R : α → β → Prop} (dx : α) (dy : β) :
    ∀ {l₁ : List α} {l₂ : List β}, List.Forall₂ R l₁ l₂ →
      ∀ i, i < l₁.length → R (l₁.getD i dx) (l₂.getD i dy) := by
  intro l₁ l₂ h
  induction h with
  | nil =>
    intro i hi
    simp at hi
  | cons hr _ ih =>
    intro i hi
    cases i with
    | zero => simpa using hr
    | succ n =>
      simp only [List.getD_cons_succ]
      refine ih n ?_
      simp only [List.length_cons] at hi
      omega

theorem zip_of_maps {α β : Type} :
    ∀ Z : List (α × β), (Z.map Prod.fst).zip (Z.map Prod.snd) = Z := by
  intro Z
  induction Z with
  | nil => rfl
  | cons p ps ih => simp [ih]

/-! ### Simulation between the real and the ghost second pass -/

theorem markFirstP_map_snd (c : Char) :
    ∀ Z : List (Char × Char),
      markFirst c (Z.map Prod.snd) = (markFirstP c Z).map Prod.snd := by
  intro Z
  induction Z with
  | nil => rfl
  | cons p ps ih =>
    simp only [List.map_cons, markFirst, markFirstP]
    by_cases h : c = p.2
    · simp [h]
    · simp [h, ih]

theorem markFirstP_map_fst (c : Char) :
    ∀ Z : List (Char × Char),
      (markFirstP c Z).map Prod.fst = Z.map Prod.fst := by
  intro Z
  induction Z with
  | nil => rfl
  | cons p ps ih =>
    simp only [markFirstP]
    by_cases h : c = p.2
    · simp [h]
    · simp [h, ih]

theorem markFirstP_length (c : Char) :
    ∀ Z : List (Char × Char), (markFirstP c Z).length = Z.length := by
  intro Z
  induction Z with
  | nil => rfl
  | cons p ps ih =>
    simp only [markFirstP]
    by_cases h : c = p.2
    · simp [h]
    · simp [h, ih]

theorem pass2P_nil (Z : List (Char × Char)) : pass2P [] Z = Z := rfl

theorem pass2P_cons_some (c : Char) (A : List (Option Char))
    (Z : List (Char × Char)) :
    pass2P (some c :: A) Z = pass2P A (markFirstP c Z) := rfl

theorem pass2P_cons_none (A : List (Option Char)) (Z : List (Char × Char)) :
    pass2P (none :: A) Z = pass2P A Z := rfl

theorem pass2P_map_snd :
    ∀ (A : List (Option Char)) (Z : List (Char × Char)),
      pass2 A (Z.map Prod.snd) = (pass2P A Z).map Prod.snd := by
  intro A
  induction A with
  | nil =>
    intro Z
    rfl
  | cons a A ih =>
    intro Z
    cases a with
    | none => exact ih Z
    | some c =>
      rw [pass2_cons_some, pass2P_cons_some, markFirstP_map_snd]
      exact ih _

theorem pass2P_map_fst :
    ∀ (A : List (Option Char)) (Z : List (Char × Char)),
      (pass2P A Z).map Prod.fst = Z.map Prod.fst := by
  intro A
  induction A with
  | nil =>
    intro Z
    rfl
  | cons a A ih =>
    intro Z
    cases a with
    | none => exact ih Z
    | some c =>
      rw [pass2P_cons_some, ih, markFirstP_map_fst]

theorem pass2P_length :
    ∀ (A : List (Option Char)) (Z : List (Char × Char)),
      (pass2P A Z).length = Z.length := by
  intro A
  induction A with
  | nil =>
    intro Z
    rfl
  | cons a A ih =>
    intro Z
    cases a with
    | none => exact ih Z
    | some c =>
      rw [pass2P_cons_some, ih, markFirstP_length]

/-! ### The Master relation: pass1 establishes it, pass2 preserves it -/

theorem masterI_master {p q : Char × Char} (h : MasterI p q) : Master p q := by
  obtain ⟨h1, h2, h3, h4⟩ := h
  refine ⟨h1, h2, h3, ?_⟩
  rcases h4 with h | h
  · exact Or.inl h
  · exact Or.inr (Or.inr h)

theorem master_step {c : Char} (hc : isLow c = true) :
    ∀ {P Z : List (Char × Char)}, List.Forall₂ Master P Z →
      List.Forall₂ Master P (markFirstP c Z) := by
  intro P Z h
  induction h with
  | nil => exact List.Forall₂.nil
  | @cons a b l₁ l₂ hq hrest ih =>
    simp only [markFirstP]
    by_cases hcb : c = b.2
    · rw [if_pos hcb]
      obtain ⟨h1, h2, h3, h4⟩ := hq
      refine List.Forall₂.cons ⟨h1, h2, h3, Or.inr (Or.inl ⟨rfl, ?_⟩)⟩ hrest
      rcases h4 with ⟨hb2, _⟩ | ⟨hb2, hne⟩ | ⟨hb2, hne⟩
      · rw [hb2] at hcb
        rw [hcb] at hc
        cases hc
      · rw [hb2] at hcb
        rw [hcb] at hc
        cases hc
      · exact hne
    · rw [if_neg hcb]
      exact List.Forall₂.cons hq ih

theorem master_fold :
    ∀ A : List (Option Char), (∀ c, some c ∈ A → isLow c = true) →
      ∀ {P Z : List (Char × Char)}, List.Forall₂ Master P Z →
        List.Forall₂ Master P (pass2P A Z) := by
  intro A
  induction A with
  | nil =>
    intro _ P Z h
    exact h
  | cons a A ih =>
    intro hA P Z h
    cases a with
    | none => exact ih (fun c hc => hA c (List.mem_cons_of_mem _ hc)) h
    | some c =>
      have hc : isLow c = true := hA c (List.mem_cons_self _ _)
      exact ih (fun c' hc' => hA c' (List.mem_cons_of_mem _ hc'))
        (master_step hc h)

theorem pass1_cons (a g : Char) (as gs : List Char) :
    pass1 (a :: as) (g :: gs) =
      if a = g then (none :: (pass1 as gs).1, '2' :: (pass1 as gs).2)
      else (some a :: (pass1 as gs).1, g :: (pass1 as gs).2) := rfl

theorem master_base :
    ∀ answer guess : List Char, LowWord answer → LowWord guess →
      List.Forall₂ MasterI (answer.zip guess)
        (guess.zip (pass1 answer guess).2) := by
  intro answer
  induction answer with
  | nil =>
    intro guess _ _
    cases guess <;> exact List.Forall₂.nil
  | cons a as ih =>
    intro guess hla hlg
    cases guess with
    | nil => exact List.Forall₂.nil
    | cons g gs =>
      have hla' : LowWord as := fun c hc => hla c (List.mem_cons_of_mem _ hc)
      have hlg' : LowWord gs := fun c hc => hlg c (List.mem_cons_of_mem _ hc)
      have hlowa : isLow a = true := hla a (List.mem_cons_self _ _)
      have hlowg : isLow g = true := hlg g (List.mem_cons_self _ _)
      rw [pass1_cons]
      by_cases hag : a = g
      · rw [if_pos hag]
        exact List.Forall₂.cons ⟨rfl, hlowa, hlowg, Or.inl ⟨rfl, hag⟩⟩
          (ih gs hla' hlg')
      · rw [if_neg hag]
        exact List.Forall₂.cons ⟨rfl, hlowa, hlowg, Or.inr ⟨rfl, hag⟩⟩
          (ih gs hla' hlg')

theorem pass1_fst_mem :
    ∀ (answer guess : List Char) (c : Char),
      some c ∈ (pass1 answer guess).1 → c ∈ answer := by
  intro answer
  induction answer with
  | nil =>
    intro guess c h
    cases guess <;> cases h
  | cons a as ih =>
    intro guess c h
    cases guess with
    | nil => cases h
    | cons g gs =>
      rw [pass1_cons] at h
      by_cases hag : a = g
      · rw [if_pos hag] at h
        rcases List.mem_cons.mp h with h | h
        · cases h
        · exact List.mem_cons_of_mem _ (ih gs c h)
      · rw [if_neg hag] at h
        rcases List.mem_cons.mp h with h | h
        · rw [Option.some.injEq] at h
          rw [h]
          exact List.mem_cons_self _ _
        · exact List.mem_cons_of_mem _ (ih gs c h)

theorem pass1_length :
    ∀ answer guess : List Char,
      (pass1 answer guess).1.length = min answer.length guess.length ∧
      (pass1 answer guess).2.length = min answer.length guess.length := by
  intro answer
  induction answer with
  | nil =>
    intro guess
    cases guess <;> simp [pass1]
  | cons a as ih =>
    intro guess
    cases guess with
    | nil => simp [pass1]
    | cons g gs =>
      rw [pass1_cons]
      by_cases hag : a = g
      · rw [if_pos hag]
        simp [List.length_cons, (ih gs).1, (ih gs).2, Nat.succ_min_succ]
      · rw [if_neg hag]
        simp [List.length_cons, (ih gs).1, (ih gs).2, Nat.succ_min_succ]

/-! ### Characterization of the first loop of is_possible -/

theorem phaseA_eq :
    ∀ (answer guess : List Char) (Zf : List (Char × Char)),
      List.Forall₂ Master (answer.zip guess) Zf →
      phaseA guess (Zf.map Prod.snd) answer =
        some (List.zipWith mark2Guess guess (Zf.map Prod.snd),
              List.zipWith mark2Word answer (Zf.map Prod.snd)) := by
  intro answer
  induction answer with
  | nil =>
    intro guess Zf hM
    cases hM
    cases guess <;> rfl
  | cons a as ih =>
    intro guess Zf hM
    cases guess with
    | nil =>
      cases hM
      rfl
    | cons g gs =>
      rw [List.zip_cons_cons] at hM
      cases hM with
      | @cons _ q _ Zf' hq hrest =>
        obtain ⟨hq1, hla, hlg, hdisj⟩ := hq
        simp only [List.map_cons, List.zipWith_cons_cons]
        by_cases h2 : q.2 = '2'
        · have hag : a = g := by
            rcases hdisj with ⟨_, he⟩ | ⟨h1, _⟩ | ⟨he, _⟩
            · exact he
            · rw [h2] at h1
              cases h1
            · rw [h2] at he
              rw [← he] at hlg
              cases hlg
          simp [phaseA, ih gs Zf' hrest, mark2Guess, mark2Word, h2, hag]
        · simp [phaseA, ih gs Zf' hrest, mark2Guess, mark2Word, h2]

theorem phi_zip :
    ∀ Z : List (Char × Char),
      (List.zipWith mark2Guess (Z.map Prod.fst) (Z.map Prod.snd)).zip
          (Z.map Prod.snd) = Z.map phiMark := by
  intro Z
  induction Z with
  | nil => rfl
  | cons q Z' ih =>
    simp only [List.map_cons, List.zipWith_cons_cons, List.zip_cons_cons, ih]
    by_cases h2 : q.2 = '2'
    · simp [mark2Guess, phiMark, h2]
    · simp [mark2Guess, phiMark, h2]

/-! ### Facts about consume -/

theorem consume_mem_of :
    ∀ (c : Char) (wl : List Char) (x : Char),
      x ∈ consume c wl → x ∈ wl ∨ x = '!' := by
  intro c wl
  induction wl with
  | nil =>
    intro x hx
    cases hx
  | cons w ws ih =>
    intro x hx
    simp only [consume] at hx
    by_cases h : c = w
    · rw [if_pos h] at hx
      rcases List.mem_cons.mp hx with rfl | hx
      · exact Or.inr rfl
      · exact Or.inl (List.mem_cons_of_mem _ hx)
    · rw [if_neg h] at hx
      rcases List.mem_cons.mp hx with rfl | hx
      · exact Or.inl (List.mem_cons_self _ _)
      · rcases ih x hx with hx | hx
        · exact Or.inl (List.mem_cons_of_mem _ hx)
        · exact Or.inr hx

theorem consume_getD :
    ∀ (c : Char) (wl : List Char) (j : Nat),
      (consume c wl).getD j '?' = wl.getD j '?' ∨
        (consume c wl).getD j '?' = '!' := by
  intro c wl
  induction wl with
  | nil =>
    intro j
    exact Or.inl rfl
  | cons w ws ih =>
    intro j
    simp only [consume]
    by_cases h : c = w
    · rw [if_pos h]
      cases j with
      | zero => exact Or.inr rfl
      | succ n => exact Or.inl rfl
    · rw [if_neg h]
      cases j with
      | zero => exact Or.inl rfl
      | succ n =>
        simpa only [List.getD_cons_succ] using ih n

theorem consume_count_self :
    ∀ (c : Char) (wl : List Char), isLow c = true → c ∈ wl →
      wl.count c = (consume c wl).count c + 1 := by
  intro c wl hc
  induction wl with
  | nil =>
    intro h
    cases h
  | cons w ws ih =>
    intro h
    simp only [consume]
    by_cases hcw : c = w
    · subst hcw
      rw [if_pos rfl]
      have hne : ('!' : Char) ≠ c := Ne.symm (isLow_ne_of hc (by decide))
      simp [List.count_cons, hne]
    · rw [if_neg hcw]
      have hwc : w ≠ c := fun he => hcw he.symm
      have hmem : c ∈ ws := by
        rcases List.mem_cons.mp h with rfl | hmm
        · exact absurd rfl hcw
        · exact hmm
      simp [List.count_cons, hwc, ih hmem]

theorem consume_count_ne :
    ∀ (c l : Char) (wl : List Char), l ≠ c → l ≠ '!' →
      (consume c wl).count l = wl.count l := by
  intro c l wl hlc hlb
  induction wl with
  | nil => rfl
  | cons w ws ih =>
    simp only [consume]
    by_cases hcw : c = w
    · rw [if_pos hcw]
      have h1 : ('!' : Char) ≠ l := fun he => hlb he.symm
      have h2 : w ≠ l := by
        rw [← hcw]
        exact fun he => hlc he.symm
      simp [List.count_cons, h1, h2]
    · rw [if_neg hcw]
      simp [List.count_cons, ih]

/-! ### The invariant INV makes the second loop of is_possible accept -/

theorem phaseB_of_INV :
    ∀ (rest : List (Char × Char)) (wl ansFull ansSuf : List Char) (i : Nat),
      INV rest wl →
      List.Forall₂ (fun p a => p.2 = '1' → isLow p.1 = true ∧ p.1 ≠ a)
        rest ansSuf →
      (∀ k, ansSuf.getD k '?' = ansFull.getD (i + k) '?') →
      (∀ j, wl.getD j '?' = ansFull.getD j '?' ∨ wl.getD j '?' = '!') →
      phaseB rest wl i = true := by
  intro rest
  induction rest with
  | nil =>
    intro wl ansFull ansSuf i _ _ _ _
    rfl
  | cons p rest ih =>
    intro wl ansFull ansSuf i hINV hpred hsuf hwl
    obtain ⟨g, d⟩ := p
    cases hpred with
    | @cons _ a _ suf hp hrest =>
      simp only [INV] at hINV
      simp only [phaseB]
      have hsuf' : ∀ k, suf.getD k '?' = ansFull.getD (i + 1 + k) '?' := by
        intro k
        have h := hsuf (k + 1)
        rw [List.getD_cons_succ] at h
        rw [h]
        congr 1
        omega
      by_cases hd1 : d = '1'
      · rw [if_pos hd1] at hINV ⊢
        obtain ⟨hmem, hinv⟩ := hINV
        obtain ⟨hlg, hga⟩ := hp hd1
        have h0 : ansFull.getD i '?' = a := by
          have h := hsuf 0
          simp only [List.getD_cons_zero, Nat.add_zero] at h
          exact h.symm
        have hgetD : ¬ g = wl.getD i '?' := by
          rcases hwl i with h | h
          · rw [h, h0]
            exact hga
          · rw [h]
            exact isLow_ne_of hlg (by decide)
        rw [if_neg hgetD, if_pos hmem]
        refine ih (consume g wl) ansFull suf (i + 1) hinv hrest hsuf' ?_
        intro j
        rcases consume_getD g wl j with h | h
        · rw [h]
          exact hwl j
        · exact Or.inr h
      · rw [if_neg hd1] at hINV ⊢
        by_cases hds : d = '*'
        · rw [if_pos hds] at hINV
          rw [if_neg (by simp [hds])]
          exact ih wl ansFull suf (i + 1) hINV hrest hsuf' hwl
        · rw [if_neg hds] at hINV
          obtain ⟨hnot, hinv⟩ := hINV
          rw [if_pos hds, if_neg hnot]
          exact ih wl ansFull suf (i + 1) hinv hrest hsuf' hwl

/-! ### Step equations for the budget check OKp -/

theorem OKp_cons_exact (l g : Char) (rest : List (Char × Char)) (m : Nat) :
    OKp l ((g, '2') :: rest) m = OKp l rest m := by
  simp [OKp]

theorem OKp_cons_one_self (l : Char) (rest : List (Char × Char)) (m : Nat) :
    OKp l ((l, '1') :: rest) m = (m ≠ 0 ∧ OKp l rest (m - 1)) := by
  simp [OKp]

theorem OKp_cons_one_ne (l g : Char) (h : g ≠ l) (rest : List (Char × Char))
    (m : Nat) : OKp l ((g, '1') :: rest) m = OKp l rest m := by
  simp [OKp, h]

theorem OKp_cons_self (l : Char) (hl : isLow l = true)
    (rest : List (Char × Char)) (m : Nat) :
    OKp l ((l, l) :: rest) m = (m = 0 ∧ OKp l rest m) := by
  have h2 : l ≠ '2' := isLow_ne_of hl (by decide)
  have h1 : l ≠ '1' := isLow_ne_of hl (by decide)
  simp [OKp, h2, h1]

theorem OKp_cons_fst_ne (l g d : Char) (h : g ≠ l)
    (rest : List (Char × Char)) (m : Nat) :
    OKp l ((g, d) :: rest) m = OKp l rest m := by
  by_cases hd : d = '2'
  · subst hd
    simp [OKp]
  · simp [OKp, h, hd]

/-! ### The per-letter budget checks establish INV -/

theorem INV_of_OK :
    ∀ (rest : List (Char × Char)) (wl : List Char),
      (∀ p ∈ rest, wfPair p) →
      (∀ c ∈ wl, isLow c = true ∨ c = '!') →
      (∀ l, isLow l = true → OKp l rest (wl.count l)) →
      INV rest wl := by
  intro rest
  induction rest with
  | nil =>
    intro wl _ _ _
    trivial
  | cons p rest ih =>
    intro wl hwf hwl hOK
    have hwfp := hwf p (List.mem_cons_self _ _)
    have hwf' : ∀ q ∈ rest, wfPair q :=
      fun q hq => hwf q (List.mem_cons_of_mem _ hq)
    obtain ⟨g, d⟩ := p
    simp only [INV]
    rcases hwfp with hat | ⟨hd1, hlg⟩ | ⟨hdg, hlg⟩
    · rw [Prod.mk.injEq] at hat
      obtain ⟨hg, hd⟩ := hat
      subst hg
      subst hd
      rw [if_neg (show ('2' : Char) ≠ '1' by decide),
        if_neg (show ('2' : Char) ≠ '*' by decide)]
      constructor
      · intro hmem
        rcases hwl '@' hmem with h | h
        · exact absurd h (by decide)
        · exact absurd h (by decide)
      · refine ih wl hwf' hwl ?_
        intro l hl
        have h := hOK l hl
        rwa [OKp_cons_exact] at h
    · have hd1' : d = '1' := hd1
      have hlg' : isLow g = true := hlg
      subst hd1'
      rw [if_pos rfl]
      have hOKg := hOK g hlg'
      rw [OKp_cons_one_self] at hOKg
      obtain ⟨hne0, hOKg'⟩ := hOKg
      have hmem : g ∈ wl := by
        by_contra hnm
        exact hne0 (List.count_eq_zero.mpr hnm)
      refine ⟨hmem, ih (consume g wl) hwf' ?_ ?_⟩
      · intro c hc
        rcases consume_mem_of g wl c hc with h | h
        · exact hwl c h
        · exact Or.inr h
      · intro l hl
        by_cases hlg2 : l = g
        · subst hlg2
          have hcnt : (consume l wl).count l = wl.count l - 1 := by
            have h := consume_count_self l wl hl hmem
            omega
          rw [hcnt]
          exact hOKg'
        · rw [consume_count_ne g l wl hlg2 (isLow_ne_of hl (by decide))]
          have h := hOK l hl
          rwa [OKp_cons_one_ne l g (fun hh => hlg2 hh.symm)] at h
    · have hdg' : g = d := hdg.symm
      have hlg' : isLow g = true := hlg
      subst hdg'
      have hg1 : g ≠ '1' := isLow_ne_of hlg' (by decide)
      have hgs : g ≠ '*' := isLow_ne_of hlg' (by decide)
      rw [if_neg hg1, if_neg hgs]
      have hOKg := hOK g hlg'
      rw [OKp_cons_self g hlg'] at hOKg
      obtain ⟨hzero, hOKg'⟩ := hOKg
      have hnm : g ∉ wl := List.count_eq_zero.mp hzero
      refine ⟨hnm, ih wl hwf' hwl ?_⟩
      intro l hl
      have h := hOK l hl
      by_cases hlg2 : l = g
      · subst hlg2
        rw [OKp_cons_self l hl] at h
        exact h.2
      · rwa [OKp_cons_fst_ne l g g (fun hh => hlg2 hh.symm)] at h

/-! ### More step equations for OKp, and transport along phiMark -/

theorem OKp_cons_self_ne (l : Char) (h2 : l ≠ '2') (h1 : l ≠ '1')
    (rest : List (Char × Char)) (m : Nat) :
    OKp l ((l, l) :: rest) m = (m = 0 ∧ OKp l rest m) := by
  simp [OKp, h2, h1]

theorem OKp_cons_other (l d : Char) (h2 : d ≠ '2') (h1 : d ≠ '1')
    (hdl : d ≠ l) (rest : List (Char × Char)) (m : Nat) :
    OKp l ((l, d) :: rest) m = OKp l rest m := by
  simp [OKp, h2, h1, hdl]

theorem OKp_phi (l : Char) :
    ∀ (Z : List (Char × Char)) (m : Nat),
      OKp l Z m → OKp l (Z.map phiMark) m := by
  intro Z
  induction Z with
  | nil =>
    intro m h
    exact h
  | cons q Z ih =>
    intro m h
    obtain ⟨q1, q2⟩ := q
    simp only [List.map_cons]
    by_cases h2 : q2 = '2'
    · subst h2
      rw [show phiMark (q1, '2') = ('@', '2') from by simp [phiMark]]
      rw [OKp_cons_exact] at h ⊢
      exact ih m h
    · rw [show phiMark (q1, q2) = (q1, q2) from by simp [phiMark, h2]]
      by_cases hq1 : q1 = l
      · by_cases hd1 : q2 = '1'
        · rw [hq1, hd1] at h ⊢
          rw [OKp_cons_one_self] at h ⊢
          exact ⟨h.1, ih _ h.2⟩
        · by_cases hdl : q2 = l
          · have h2' : l ≠ '2' := hdl ▸ h2
            have h1' : l ≠ '1' := hdl ▸ hd1
            rw [hq1, hdl] at h ⊢
            rw [OKp_cons_self_ne l h2' h1'] at h ⊢
            exact ⟨h.1, ih _ h.2⟩
          · rw [hq1] at h ⊢
            rw [OKp_cons_other l q2 h2 hd1 hdl] at h ⊢
            exact ih m h
      · rw [OKp_cons_fst_ne l q1 q2 hq1] at h ⊢
        exact ih m h

/-! ### Cells of ghost states -/

theorem okCell_of_master {p q : Char × Char} (h : Master p q) : okCell q := by
  obtain ⟨h1, _, h3, hd⟩ := h
  rcases hd with ⟨h2, _⟩ | ⟨h2, _⟩ | ⟨h2, _⟩
  · exact Or.inl h2
  · exact Or.inr (Or.inl h2)
  · refine Or.inr (Or.inr ⟨h2.trans h1.symm, ?_⟩)
    rw [h1]
    exact h3

theorem okCell_markFirstP (c : Char) :
    ∀ Z : List (Char × Char), (∀ q ∈ Z, okCell q) →
      ∀ q ∈ markFirstP c Z, okCell q := by
  intro Z
  induction Z with
  | nil =>
    intro _ q hq
    cases hq
  | cons p Z ih =>
    intro h q hq
    simp only [markFirstP] at hq
    by_cases hcp : c = p.2
    · rw [if_pos hcp] at hq
      rcases List.mem_cons.mp hq with rfl | hq
      · exact Or.inr (Or.inl rfl)
      · exact h q (List.mem_cons_of_mem _ hq)
    · rw [if_neg hcp] at hq
      rcases List.mem_cons.mp hq with rfl | hq
      · exact h _ (List.mem_cons_self _ _)
      · exact ih (fun r hr => h r (List.mem_cons_of_mem _ hr)) q hq

/-! ### The filtered view of a ghost state -/

theorem filtL_cons_in (l : Char) (p : Char × Char) (Z : List (Char × Char))
    (h : p.1 = l ∧ p.2 ≠ '2') : filtL l (p :: Z) = p :: filtL l Z := by
  simp [filtL, List.filter_cons, h]

theorem filtL_cons_out (l : Char) (p : Char × Char) (Z : List (Char × Char))
    (h : ¬(p.1 = l ∧ p.2 ≠ '2')) : filtL l (p :: Z) = filtL l Z := by
  simp only [filtL, List.filter_cons]
  rw [if_neg (by simpa using h)]

theorem filtL_base (l : Char) :
    ∀ Z : List (Char × Char), (∀ q ∈ Z, q.2 = '2' ∨ q.2 = q.1) →
      ∃ u, filtL l Z = List.replicate u (l, l) := by
  intro Z h
  refine ⟨(filtL l Z).length, List.eq_replicate_of_mem ?_⟩
  intro b hb
  obtain ⟨b1, b2⟩ := b
  have hb' := List.mem_filter.mp hb
  have hcond : b1 = l ∧ b2 ≠ '2' := by simpa using hb'.2
  rcases h _ hb'.1 with h2 | he
  · exact absurd h2 hcond.2
  · rw [Prod.mk.injEq]
    exact ⟨hcond.1, he.trans hcond.1⟩

/-! ### How marking one cell changes the filtered view -/

theorem okCell_fst_of_snd {q : Char × Char} {c : Char} (hcell : okCell q)
    (hc : isLow c = true) (hcq : c = q.2) : q.1 = c := by
  rcases hcell with h | h | ⟨h, _⟩
  · rw [h] at hcq
    exact absurd hcq (isLow_ne_of hc (by decide))
  · rw [h] at hcq
    exact absurd hcq (isLow_ne_of hc (by decide))
  · exact h.symm.trans hcq.symm

theorem filtL_markFirstP_ne (c l : Char) (hc : isLow c = true) (hne : c ≠ l) :
    ∀ Z : List (Char × Char), (∀ q ∈ Z, okCell q) →
      filtL l (markFirstP c Z) = filtL l Z := by
  intro Z
  induction Z with
  | nil =>
    intro _
    rfl
  | cons q Z ih =>
    intro hcells
    have hcells' : ∀ r ∈ Z, okCell r :=
      fun r hr => hcells r (List.mem_cons_of_mem _ hr)
    simp only [markFirstP]
    by_cases hcq : c = q.2
    · rw [if_pos hcq]
      have hq1 : q.1 = c :=
        okCell_fst_of_snd (hcells q (List.mem_cons_self _ _)) hc hcq
      rw [filtL_cons_out l (q.1, '1') Z (fun hh => hne (hq1.symm.trans hh.1)),
        filtL_cons_out l q Z (fun hh => hne (hq1.symm.trans hh.1))]
    · rw [if_neg hcq]
      by_cases hin : q.1 = l ∧ q.2 ≠ '2'
      · rw [filtL_cons_in l q (markFirstP c Z) hin, filtL_cons_in l q Z hin,
          ih hcells']
      · rw [filtL_cons_out l q (markFirstP c Z) hin, filtL_cons_out l q Z hin,
          ih hcells']

theorem filtL_markFirstP_self (c : Char) (hc : isLow c = true) :
    ∀ (Z : List (Char × Char)) (k u : Nat), (∀ q ∈ Z, okCell q) →
      filtL c Z = List.replicate k (c, '1') ++ List.replicate (u + 1) (c, c) →
      filtL c (markFirstP c Z) =
        List.replicate (k + 1) (c, '1') ++ List.replicate u (c, c) := by
  intro Z
  induction Z with
  | nil =>
    intro k u _ hshape
    exfalso
    have hlen := congrArg List.length hshape
    simp [filtL] at hlen
    omega
  | cons q Z ih =>
    intro k u hcells hshape
    have hcells' : ∀ r ∈ Z, okCell r :=
      fun r hr => hcells r (List.mem_cons_of_mem _ hr)
    obtain ⟨q1, q2⟩ := q
    simp only [markFirstP]
    by_cases hcq : c = q2
    · rw [if_pos hcq]
      have hq1 : q1 = c :=
        okCell_fst_of_snd (hcells _ (List.mem_cons_self _ _)) hc hcq
      rw [hq1]
      rw [hq1, ← hcq] at hshape
      rw [filtL_cons_in c (c, c) Z ⟨rfl, isLow_ne_of hc (by decide)⟩] at hshape
      cases k with
      | succ k' =>
        exfalso
        rw [List.replicate_succ, List.cons_append] at hshape
        injection hshape with h1 _
        rw [Prod.mk.injEq] at h1
        exact absurd h1.2 (isLow_ne_of hc (by decide))
      | zero =>
        rw [List.replicate_zero, List.nil_append, List.replicate_succ]
          at hshape
        injection hshape with _ htl
        rw [filtL_cons_in c (c, '1') Z ⟨rfl, show ('1' : Char) ≠ '2' by decide⟩,
          htl]
        simp [List.replicate_succ]
    · rw [if_neg hcq]
      by_cases hq1 : q1 = c
      · rcases hcells _ (List.mem_cons_self _ _) with h2 | h1 | ⟨hee, _⟩
        · rw [filtL_cons_out c (q1, q2) Z (fun hh => hh.2 h2)] at hshape
          rw [filtL_cons_out c (q1, q2) (markFirstP c Z) (fun hh => hh.2 h2)]
          exact ih k u hcells' hshape
        · rw [filtL_cons_in c (q1, q2) Z ⟨hq1, by rw [h1]; decide⟩] at hshape
          rw [filtL_cons_in c (q1, q2) (markFirstP c Z)
            ⟨hq1, by rw [h1]; decide⟩]
          cases k with
          | zero =>
            exfalso
            rw [List.replicate_zero, List.nil_append, List.replicate_succ]
              at hshape
            injection hshape with hh _
            rw [Prod.mk.injEq] at hh
            have h1' : q2 = '1' := h1
            rw [hh.2] at h1'
            exact absurd h1' (isLow_ne_of hc (by decide))
          | succ k' =>
            rw [List.replicate_succ, List.cons_append] at hshape
            injection hshape with hh htl
            rw [hh, ih k' u hcells' htl]
            simp [List.replicate_succ]
        · exact absurd (hee.trans hq1).symm hcq
      · rw [filtL_cons_out c (q1, q2) Z (fun hh => hq1 hh.1)] at hshape
        rw [filtL_cons_out c (q1, q2) (markFirstP c Z) (fun hh => hq1 hh.1)]
        exact ih k u hcells' hshape

theorem markFirstP_id_of_no_absent (c : Char) (hc : isLow c = true) :
    ∀ (Z : List (Char × Char)) (k : Nat), (∀ q ∈ Z, okCell q) →
      filtL c Z = List.replicate k (c, '1') → markFirstP c Z = Z := by
  intro Z
  induction Z with
  | nil =>
    intro k _ _
    rfl
  | cons q Z ih =>
    intro k hcells hshape
    have hcells' : ∀ r ∈ Z, okCell r :=
      fun r hr => hcells r (List.mem_cons_of_mem _ hr)
    obtain ⟨q1, q2⟩ := q
    simp only [markFirstP]
    by_cases hcq : c = q2
    · exfalso
      have hq1 : q1 = c :=
        okCell_fst_of_snd (hcells _ (List.mem_cons_self _ _)) hc hcq
      rw [hq1, ← hcq] at hshape
      rw [filtL_cons_in c (c, c) Z ⟨rfl, isLow_ne_of hc (by decide)⟩] at hshape
      cases k with
      | zero =>
        rw [List.replicate_zero] at hshape
        exact absurd hshape (List.cons_ne_nil _ _)
      | succ k' =>
        rw [List.replicate_succ] at hshape
        injection hshape with hh _
        rw [Prod.mk.injEq] at hh
        exact absurd hh.2 (isLow_ne_of hc (by decide))
    · rw [if_neg hcq]
      by_cases hq1 : q1 = c
      · rcases hcells _ (List.mem_cons_self _ _) with h2 | h1 | ⟨hee, _⟩
        · rw [filtL_cons_out c (q1, q2) Z (fun hh => hh.2 h2)] at hshape
          rw [ih k hcells' hshape]
        · rw [filtL_cons_in c (q1, q2) Z ⟨hq1, by rw [h1]; decide⟩] at hshape
          cases k with
          | zero =>
            rw [List.replicate_zero] at hshape
            exact absurd hshape (List.cons_ne_nil _ _)
          | succ k' =>
            rw [List.replicate_succ] at hshape
            injection hshape with _ htl
            rw [ih k' hcells' htl]
        · exact absurd (hee.trans hq1).symm hcq
      · rw [filtL_cons_out c (q1, q2) Z (fun hh => hq1 hh.1)] at hshape
        rw [ih k hcells' hshape]

/-! ### The shape of the filtered view after the whole second pass -/

theorem filtL_pass2P :
    ∀ A : List (Option Char), (∀ c, some c ∈ A → isLow c = true) →
      ∀ (Z : List (Char × Char)) (l : Char), isLow l = true →
        (∀ q ∈ Z, okCell q) → ∀ k u,
          filtL l Z = List.replicate k (l, '1') ++ List.replicate u (l, l) →
          filtL l (pass2P A Z) =
            List.replicate (k + min (A.count (some l)) u) (l, '1') ++
              List.replicate (u - min (A.count (some l)) u) (l, l) := by
  intro A
  induction A with
  | nil =>
    intro _ Z l _ _ k u hshape
    rw [pass2P_nil]
    simpa using hshape
  | cons a A ih =>
    intro hA Z l hl hcells k u hshape
    cases a with
    | none =>
      rw [pass2P_cons_none]
      have hcnt : (none :: A).count (some l) = A.count (some l) := by
        simp [List.count_cons]
      rw [hcnt]
      exact ih (fun c hc => hA c (List.mem_cons_of_mem _ hc)) Z l hl hcells
        k u hshape
    | some c =>
      have hc : isLow c = true := hA c (List.mem_cons_self _ _)
      have hA' : ∀ c', some c' ∈ A → isLow c' = true :=
        fun c' hc' => hA c' (List.mem_cons_of_mem _ hc')
      rw [pass2P_cons_some]
      by_cases hcl : c = l
      · have hcnt : (some c :: A).count (some l) = A.count (some l) + 1 := by
          simp [List.count_cons, hcl]
        rw [hcnt]
        cases u with
        | zero =>
          rw [List.replicate_zero, List.append_nil] at hshape
          rw [hcl]
          rw [markFirstP_id_of_no_absent l hl Z k hcells hshape]
          have hrec := ih hA' Z l hl hcells k 0
            (by rw [hshape, List.replicate_zero, List.append_nil])
          simpa using hrec
        | succ u' =>
          rw [hcl]
          have hstep := filtL_markFirstP_self l hl Z k u' hcells hshape
          have hcells2 := okCell_markFirstP l Z hcells
          have hrec := ih hA' (markFirstP l Z) l hl hcells2 (k + 1) u' hstep
          rw [hrec]
          have e1 : min (A.count (some l) + 1) (u' + 1) =
              min (A.count (some l)) u' + 1 := by
            rcases Nat.le_total (A.count (some l)) u' with h | h
            · rw [min_eq_left h, min_eq_left (by omega)]
            · rw [min_eq_right h, min_eq_right (by omega)]
          rw [e1]
          have e2 : k + 1 + min (A.count (some l)) u' =
              k + (min (A.count (some l)) u' + 1) := by omega
          have e3 : u' - min (A.count (some l)) u' =
              u' + 1 - (min (A.count (some l)) u' + 1) := by omega
          rw [e2, e3]
      · have hcnt : (some c :: A).count (some l) = A.count (some l) := by
          simp [List.count_cons, hcl]
        rw [hcnt]
        have hshape' : filtL l (markFirstP c Z) =
            List.replicate k (l, '1') ++ List.replicate u (l, l) := by
          rw [filtL_markFirstP_ne c l hc hcl Z hcells]
          exact hshape
        exact ih hA' (markFirstP c Z) l hl (okCell_markFirstP c Z hcells)
          k u hshape'

/-! ### The budget check follows from the shape of the filtered view -/

theorem OKp_of_shape (l : Char) (hl : isLow l = true) :
    ∀ (Z : List (Char × Char)) (t s m : Nat),
      filtL l Z = List.replicate t (l, '1') ++ List.replicate s (l, l) →
      t ≤ m → (s ≠ 0 → t = m) → OKp l Z m := by
  intro Z
  induction Z with
  | nil =>
    intro t s m _ _ _
    trivial
  | cons q Z ih =>
    intro t s m hshape ht hs
    obtain ⟨q1, q2⟩ := q
    by_cases h2 : q2 = '2'
    · rw [h2]
      rw [OKp_cons_exact]
      rw [filtL_cons_out l (q1, q2) Z (fun hh => hh.2 h2)] at hshape
      exact ih t s m hshape ht hs
    · by_cases hq1 : q1 = l
      · rw [hq1]
        rw [filtL_cons_in l (q1, q2) Z ⟨hq1, h2⟩] at hshape
        rw [hq1] at hshape
        cases t with
        | succ t' =>
          rw [List.replicate_succ, List.cons_append] at hshape
          injection hshape with hhd htl
          rw [Prod.mk.injEq] at hhd
          rw [hhd.2]
          rw [OKp_cons_one_self]
          refine ⟨by omega, ih t' s (m - 1) htl (by omega) ?_⟩
          intro hs0
          have := hs hs0
          omega
        | zero =>
          cases s with
          | zero =>
            exfalso
            rw [List.replicate_zero, List.nil_append, List.replicate_zero]
              at hshape
            exact List.cons_ne_nil _ _ hshape
          | succ s' =>
            rw [List.replicate_zero, List.nil_append, List.replicate_succ]
              at hshape
            injection hshape with hhd htl
            rw [Prod.mk.injEq] at hhd
            rw [hhd.2]
            have hm : m = 0 := (hs (Nat.succ_ne_zero s')).symm
            rw [OKp_cons_self l hl]
            refine ⟨hm, ih 0 s' m (by simpa using htl) (by omega) ?_⟩
            intro _
            omega
      · rw [OKp_cons_fst_ne l q1 q2 hq1]
        rw [filtL_cons_out l (q1, q2) Z (fun hh => hq1 hh.1)] at hshape
        exact ih t s m hshape ht hs

/-! ### Counting Exact marks through the second pass -/

theorem markFirstP_count2 (c l : Char) (hc : isLow c = true) :
    ∀ Z : List (Char × Char),
      (markFirstP c Z).count (l, '2') = Z.count (l, '2') := by
  intro Z
  induction Z with
  | nil => rfl
  | cons q Z ih =>
    simp only [markFirstP]
    by_cases hcq : c = q.2
    · rw [if_pos hcq]
      have hq2 : q ≠ (l, '2') := by
        intro he
        have : c = '2' := hcq.trans (congrArg Prod.snd he)
        exact absurd this (isLow_ne_of hc (by decide))
      have hq1 : (q.1, '1') ≠ (l, '2') := by
        intro he
        have : ('1' : Char) = '2' := congrArg Prod.snd he
        exact absurd this (by decide)
      rw [List.count_cons_of_ne (fun he => hq1 he.symm),
        List.count_cons_of_ne (fun he => hq2 he.symm)]
    · rw [if_neg hcq, List.count_cons, List.count_cons, ih]

theorem pass2P_count2 (l : Char) :
    ∀ A : List (Option Char), (∀ c, some c ∈ A → isLow c = true) →
      ∀ Z : List (Char × Char),
        (pass2P A Z).count (l, '2') = Z.count (l, '2') := by
  intro A
  induction A with
  | nil =>
    intro _ Z
    rfl
  | cons a A ih =>
    intro hA Z
    cases a with
    | none => exact ih (fun c hc => hA c (List.mem_cons_of_mem _ hc)) Z
    | some c =>
      rw [pass2P_cons_some, ih (fun c' hc' => hA c' (List.mem_cons_of_mem _ hc')),
        markFirstP_count2 c l (hA c (List.mem_cons_self _ _))]

/-! ### Base counting: exact marks plus surviving answer letters -/

theorem count_split (l : Char) :
    ∀ answer guess : List Char, LowWord guess →
      answer.length = guess.length →
      (guess.zip (pass1 answer guess).2).count (l, '2') +
        (pass1 answer guess).1.count (some l) = answer.count l := by
  intro answer
  induction answer with
  | nil =>
    intro guess _ hlen
    cases guess with
    | nil => rfl
    | cons g gs => simp at hlen
  | cons a as ih =>
    intro guess hlg hlen
    cases guess with
    | nil => simp at hlen
    | cons g gs =>
      have hlg' : LowWord gs := fun c hc => hlg c (List.mem_cons_of_mem _ hc)
      have hlen' : as.length = gs.length := by simpa using hlen
      have hrec := ih gs hlg' hlen'
      rw [pass1_cons]
      by_cases hag : a = g
      · rw [if_pos hag, List.zip_cons_cons]
        by_cases hal : a = l
        · rw [← hag, hal]
          rw [List.count_cons_self,
            List.count_cons_of_ne (fun he => Option.noConfusion he),
            List.count_cons_self]
          omega
        · rw [← hag]
          rw [List.count_cons_of_ne
              (fun he => hal (congrArg Prod.fst he).symm),
            List.count_cons_of_ne (fun he => Option.noConfusion he),
            List.count_cons_of_ne (fun he => hal he.symm)]
          exact hrec
      · rw [if_neg hag, List.zip_cons_cons]
        have hg2 : ((l, '2') : Char × Char) ≠ (g, g) := by
          intro he
          have : ('2' : Char) = g := congrArg Prod.snd he
          exact absurd this.symm
            (isLow_ne_of (hlg g (List.mem_cons_self _ _)) (by decide))
        by_cases hal : a = l
        · rw [hal] at hag ⊢
          rw [List.count_cons_of_ne hg2,
            List.count_cons_self, List.count_cons_self]
          omega
        · rw [List.count_cons_of_ne hg2,
            List.count_cons_of_ne
              (fun he => hal (Option.some.inj he).symm),
            List.count_cons_of_ne (fun he => hal he.symm)]
          exact hrec

/-! ### The word list after the first loop counts the surviving letters -/

theorem count_W2_eq_A (l : Char) (hl : isLow l = true) :
    ∀ (answer guess : List Char) (Zf : List (Char × Char)),
      List.Forall₂ Master (answer.zip guess) Zf →
      (List.zipWith mark2Word answer (Zf.map Prod.snd)).count l =
        (pass1 answer guess).1.count (some l) := by
  intro answer
  induction answer with
  | nil =>
    intro guess Zf hM
    cases hM
    cases guess <;> rfl
  | cons a as ih =>
    intro guess Zf hM
    cases guess with
    | nil =>
      cases hM
      rfl
    | cons g gs =>
      rw [List.zip_cons_cons] at hM
      cases hM with
      | @cons _ q _ Zf' hq hrest =>
        obtain ⟨hq1, hla, hlg, hdisj⟩ := hq
        rw [pass1_cons]
        simp only [List.map_cons, List.zipWith_cons_cons]
        by_cases h2 : q.2 = '2'
        · have hag : a = g := by
            rcases hdisj with ⟨_, he⟩ | ⟨h1, _⟩ | ⟨he, _⟩
            · exact he
            · rw [h2] at h1
              cases h1
            · rw [h2] at he
              rw [← he] at hlg
              cases hlg
          rw [if_pos hag]
          dsimp only
          have hmw : mark2Word a q.2 = '!' := by simp [mark2Word, h2]
          rw [hmw,
            List.count_cons_of_ne (show l ≠ '!' from isLow_ne_of hl (by decide)),
            List.count_cons_of_ne
              (show some l ≠ none from fun he => Option.noConfusion he)]
          exact ih gs Zf' hrest
        · have hag : a ≠ g := by
            rcases hdisj with ⟨he, _⟩ | ⟨_, hne⟩ | ⟨_, hne⟩
            · exact absurd he h2
            · exact hne
            · exact hne
          rw [if_neg hag]
          dsimp only
          have hmw : mark2Word a q.2 = a := by simp [mark2Word, h2]
          rw [hmw]
          by_cases hal : l = a
          · rw [← hal]
            rw [List.count_cons_self, List.count_cons_self]
            rw [ih gs Zf' hrest]
          · rw [List.count_cons_of_ne hal,
              List.count_cons_of_ne (fun he => hal (Option.some.inj he))]
            exact ih gs Zf' hrest

/-! ### Glue lemmas for the final assembly -/

theorem mark2Word_mem :
    ∀ (ans D : List Char) (x : Char),
      x ∈ List.zipWith mark2Word ans D → x = '!' ∨ x ∈ ans := by
  intro ans
  induction ans with
  | nil =>
    intro D x hx
    cases hx
  | cons a as ih =>
    intro D x hx
    cases D with
    | nil => cases hx
    | cons d D' =>
      rw [List.zipWith_cons_cons] at hx
      rcases List.mem_cons.mp hx with rfl | hx
      · by_cases h2 : d = '2'
        · exact Or.inl (by simp [mark2Word, h2])
        · right
          have : mark2Word a d = a := by simp [mark2Word, h2]
          rw [this]
          exact List.mem_cons_self _ _
      · rcases ih D' x hx with h | h
        · exact Or.inl h
        · exact Or.inr (List.mem_cons_of_mem _ h)

theorem mark2Word_getD :
    ∀ (ans D : List Char), ans.length ≤ D.length → ∀ j,
      (List.zipWith mark2Word ans D).getD j '?' = ans.getD j '?' ∨
        (List.zipWith mark2Word ans D).getD j '?' = '!' := by
  intro ans
  induction ans with
  | nil =>
    intro D _ j
    exact Or.inl rfl
  | cons a as ih =>
    intro D hlen j
    cases D with
    | nil => simp at hlen
    | cons d D' =>
      rw [List.zipWith_cons_cons]
      cases j with
      | zero =>
        by_cases h2 : d = '2'
        · exact Or.inr (by simp [mark2Word, h2])
        · exact Or.inl (by simp [mark2Word, h2])
      | succ n =>
        simp only [List.getD_cons_succ]
        exact ih D' (by simpa using hlen) n

theorem master_pred :
    ∀ {P Zf : List (Char × Char)}, List.Forall₂ Master P Zf →
      List.Forall₂ (fun q a => q.2 = '1' → isLow q.1 = true ∧ q.1 ≠ a)
        (Zf.map phiMark) (P.map Prod.fst) := by
  intro P Zf h
  induction h with
  | nil => exact List.Forall₂.nil
  | @cons pr q P' Zf' hq hrest ih =>
    simp only [List.map_cons]
    refine List.Forall₂.cons ?_ ih
    intro h1
    obtain ⟨hq1, hpla, hplg, hdisj⟩ := hq
    by_cases h2 : q.2 = '2'
    · exfalso
      have : phiMark q = ('@', '2') := by simp [phiMark, h2]
      rw [this] at h1
      exact absurd h1 (by decide)
    · have hphi : phiMark q = q := by simp [phiMark, h2]
      rw [hphi] at h1 ⊢
      rcases hdisj with ⟨he, _⟩ | ⟨_, hne⟩ | ⟨he, _⟩
      · exact absurd he h2
      · refine ⟨by rw [hq1]; exact hplg, ?_⟩
        rw [hq1]
        exact fun he => hne he.symm
      · exfalso
        rw [h1] at he
        rw [← he] at hplg
        exact absurd hplg (by decide)

theorem master_guess_grade :
    ∀ {P Zf : List (Char × Char)}, List.Forall₂ Master P Zf →
      List.Forall₂ (fun g d => d = '2' ∨ d = '1' ∨ d = g)
        (Zf.map Prod.fst) (Zf.map Prod.snd) := by
  intro P Zf h
  induction h with
  | nil => exact List.Forall₂.nil
  | @cons pr q P' Zf' hq hrest ih =>
    simp only [List.map_cons]
    refine List.Forall₂.cons ?_ ih
    obtain ⟨hq1, _, _, hdisj⟩ := hq
    rcases hdisj with ⟨he, _⟩ | ⟨he, _⟩ | ⟨he, _⟩
    · exact Or.inl he
    · exact Or.inr (Or.inl he)
    · exact Or.inr (Or.inr (he.trans hq1.symm))

theorem master_main (answer guess : List Char) (hla : LowWord answer)
    (hlg : LowWord guess) :
    List.Forall₂ Master (answer.zip guess)
      (pass2P (pass1 answer guess).1
        (guess.zip (pass1 answer guess).2)) := by
  refine master_fold _ (fun c hc => hla c (pass1_fst_mem _ _ c hc)) ?_
  exact (master_base answer guess hla hlg).imp
    (fun _ _ h => masterI_master h)


theorem grade_eq_ghost (answer guess : List Char) :
    (grade_word answer guess).grade =
      (pass2P (pass1 answer guess).1
        (guess.zip (pass1 answer guess).2)).map Prod.snd := by
  have hG1 : (guess.zip (pass1 answer guess).2).map Prod.snd =
      (pass1 answer guess).2 := by
    refine List.map_snd_zip _ _ ?_
    rw [(pass1_length answer guess).2]
    exact min_le_right _ _
  show pass2 (pass1 answer guess).1 (pass1 answer guess).2 = _
  rw [← pass2P_map_snd, hG1]

theorem guess_eq_ghost (answer guess : List Char)
    (hlen : answer.length = guess.length) :
    (pass2P (pass1 answer guess).1
      (guess.zip (pass1 answer guess).2)).map Prod.fst = guess := by
  rw [pass2P_map_fst]
  refine List.map_fst_zip _ _ ?_
  rw [(pass1_length answer guess).2, ← hlen, Nat.min_self]

theorem Z0_cells (answer guess : List Char) (hla : LowWord answer)
    (hlg : LowWord guess) :
    ∀ q ∈ guess.zip (pass1 answer guess).2, q.2 = '2' ∨ q.2 = q.1 := by
  intro q hq
  obtain ⟨pr, _, hM⟩ :=
    forall2_mem_right (master_base answer guess hla hlg) q hq
  obtain ⟨h1, _, _, hd⟩ := hM
  rcases hd with ⟨h2, _⟩ | ⟨he, _⟩
  · exact Or.inl h2
  · exact Or.inr (he.trans h1.symm)

theorem Z0_okCells (answer guess : List Char) (hla : LowWord answer)
    (hlg : LowWord guess) :
    ∀ q ∈ guess.zip (pass1 answer guess).2, okCell q := by
  intro q hq
  obtain ⟨pr, _, hM⟩ :=
    forall2_mem_right (master_base answer guess hla hlg) q hq
  exact okCell_of_master (masterI_master hM)

/-! ### Soundness of the checker on the grader's own output -/

theorem is_possible_grade_eq (answer guess gG : List Char)
    (hlen : answer.length = guess.length) (hla : LowWord answer)
    (hlg : LowWord guess) :
    is_possible answer (grade_word answer guess) gG =
      decide (answer ≠ gG) := by
  have hM := master_main answer guess hla hlg
  have hgrade := grade_eq_ghost answer guess
  have hguess := guess_eq_ghost answer guess hlen
  have hA := phaseA_eq answer guess _ hM
  have hlenZf : (pass2P (pass1 answer guess).1
      (guess.zip (pass1 answer guess).2)).length = answer.length := by
    rw [pass2P_length, List.length_zip, (pass1_length answer guess).2, ← hlen]
    simp [Nat.min_self]
  have hstep1 : is_possible answer (grade_word answer guess) gG =
      if phaseB ((List.zipWith mark2Guess guess
            ((pass2P (pass1 answer guess).1
              (guess.zip (pass1 answer guess).2)).map Prod.snd)).zip
          ((pass2P (pass1 answer guess).1
            (guess.zip (pass1 answer guess).2)).map Prod.snd))
          (List.zipWith mark2Word answer
            ((pass2P (pass1 answer guess).1
              (guess.zip (pass1 answer guess).2)).map Prod.snd)) 0 then
        decide (answer ≠ gG)
      else false := by
    unfold is_possible
    rw [show (grade_word answer guess).guess = guess from rfl, hgrade, hA]
  rw [hstep1]
  have hzip := phi_zip (pass2P (pass1 answer guess).1
    (guess.zip (pass1 answer guess).2))
  rw [hguess] at hzip
  rw [hzip]
  have hPB : phaseB ((pass2P (pass1 answer guess).1
        (guess.zip (pass1 answer guess).2)).map phiMark)
      (List.zipWith mark2Word answer
        ((pass2P (pass1 answer guess).1
          (guess.zip (pass1 answer guess).2)).map Prod.snd)) 0 = true := by
    apply phaseB_of_INV _ _ answer answer 0
    · apply INV_of_OK
      · intro p hp
        obtain ⟨q, hq, hphi⟩ := List.mem_map.mp hp
        obtain ⟨pr, hpr, hMq⟩ := forall2_mem_right hM q hq
        obtain ⟨h1, h2l, h3l, hd⟩ := hMq
        rcases hd with ⟨hq2, _⟩ | ⟨hq2, _⟩ | ⟨hq2, _⟩
        · left
          rw [← hphi]
          simp [phiMark, hq2]
        · right
          left
          rw [← hphi, show phiMark q = q from by simp [phiMark, hq2]]
          exact ⟨hq2, by rw [h1]; exact h3l⟩
        · right
          right
          have hne2 : q.2 ≠ '2' := by
            rw [hq2]
            exact isLow_ne_of h3l (by decide)
          rw [← hphi, show phiMark q = q from by simp [phiMark, hne2]]
          exact ⟨hq2.trans h1.symm, by rw [h1]; exact h3l⟩
      · intro c hc
        rcases mark2Word_mem answer _ c hc with h | h
        · exact Or.inr h
        · exact Or.inl (hla c h)
      · intro l hl
        rw [count_W2_eq_A l hl answer guess _ hM]
        apply OKp_phi
        obtain ⟨u0, hbase⟩ := filtL_base l _ (Z0_cells answer guess hla hlg)
        have hshape := filtL_pass2P (pass1 answer guess).1
          (fun c hc => hla c (pass1_fst_mem _ _ c hc))
          (guess.zip (pass1 answer guess).2) l hl
          (Z0_okCells answer guess hla hlg) 0 u0
          (by rw [hbase]; simp)
        refine OKp_of_shape l hl _
          (0 + min ((pass1 answer guess).1.count (some l)) u0)
          (u0 - min ((pass1 answer guess).1.count (some l)) u0)
          ((pass1 answer guess).1.count (some l)) hshape ?_ ?_
        · rw [Nat.zero_add]
          exact min_le_left ((pass1 answer guess).1.count (some l)) u0
        · intro hs
          have hlt : min ((pass1 answer guess).1.count (some l)) u0 < u0 := by
            have := min_le_right ((pass1 answer guess).1.count (some l)) u0
            omega
          rcases Nat.le_total ((pass1 answer guess).1.count (some l)) u0
            with h | h
          · simpa using min_eq_left h
          · rw [min_eq_right h] at hlt
            omega
    · have hp := master_pred hM
      rwa [List.map_fst_zip answer guess (le_of_eq hlen)] at hp
    · intro k
      rw [Nat.zero_add]
    · intro j
      refine mark2Word_getD answer _ ?_ j
      rw [List.length_map, hlenZf]
  rw [hPB, if_pos rfl]

/-! ### C1: soundness of the reduction for the true answer -/

/-- C1 amended: for equal-length lowercase words with the guess in the
dictionary hash and the answer different from the guess, the true answer
survives its own guess's result: is_possible(answer, grade_word(answer,
guess)) is true (with the module-level guess variable holding the guessed
word, as at every call site).  The case answer = guess must be excluded: there
the final word != guess comparison eliminates the answer, as the
counterexample shows. -/
theorem C1_soundness (answer guess : List Char) (wh : List (List Char))
    (hlen : answer.length = guess.length) (hla : LowWord answer)
    (hlg : LowWord guess) (hne : answer ≠ guess) (hmem : guess ∈ wh) :
    grade_word_wh answer guess wh =
      GradeOutcome.ok (grade_word answer guess) ∧
    is_possible answer (grade_word answer guess) guess = true := by
  refine ⟨by simp [grade_word_wh, hmem], ?_⟩
  rw [is_possible_grade_eq answer guess guess hlen hla hlg]
  exact decide_eq_true hne

/-- C1 witness: the duplicate-letter pair answer abbey, guess bbbbb. -/
theorem C1_witness :
    grade_word_wh ['a', 'b', 'b', 'e', 'y'] ['b', 'b', 'b', 'b', 'b']
        [['b', 'b', 'b', 'b', 'b']] =
      GradeOutcome.ok
        (grade_word ['a', 'b', 'b', 'e', 'y'] ['b', 'b', 'b', 'b', 'b']) ∧
    is_possible ['a', 'b', 'b', 'e', 'y']
      (grade_word ['a', 'b', 'b', 'e', 'y'] ['b', 'b', 'b', 'b', 'b'])
      ['b', 'b', 'b', 'b', 'b'] = true :=
  C1_soundness _ _ _ (by decide) (by decide) (by decide) (by decide)
    (by decide)

/-! ### C2: duplicate-letter mark bound -/

/-- C2: for equal-length lowercase words, the combined number of Exact (mark
2) and Present (mark 1) positions that the grade assigns to any letter never
exceeds the number of occurrences of that letter in the answer. -/
theorem C2_duplicate_marks_bound (answer guess : List Char) (l : Char)
    (hlen : answer.length = guess.length) (hla : LowWord answer)
    (hlg : LowWord guess) (hl : isLow l = true) :
    marksFor l guess (grade_word answer guess).grade ≤ answer.count l := by
  have hgrade := grade_eq_ghost answer guess
  have hguess := guess_eq_ghost answer guess hlen
  have hz := zip_of_maps (pass2P (pass1 answer guess).1
    (guess.zip (pass1 answer guess).2))
  rw [hguess] at hz
  simp only [marksFor]
  rw [hgrade, hz]
  have hc2 : (pass2P (pass1 answer guess).1
      (guess.zip (pass1 answer guess).2)).count (l, '2') =
      (guess.zip (pass1 answer guess).2).count (l, '2') :=
    pass2P_count2 l _ (fun c hc => hla c (pass1_fst_mem _ _ c hc)) _
  obtain ⟨u0, hbase⟩ := filtL_base l _ (Z0_cells answer guess hla hlg)
  have hshape := filtL_pass2P (pass1 answer guess).1
    (fun c hc => hla c (pass1_fst_mem _ _ c hc))
    (guess.zip (pass1 answer guess).2) l hl
    (Z0_okCells answer guess hla hlg) 0 u0 (by rw [hbase]; simp)
  have hne : ((l, l) : Char × Char) ≠ (l, '1') := fun he =>
    (isLow_ne_of hl (show isLow '1' = false by decide))
      (congrArg Prod.snd he)
  have hc1 : (pass2P (pass1 answer guess).1
      (guess.zip (pass1 answer guess).2)).count (l, '1') =
      0 + min ((pass1 answer guess).1.count (some l)) u0 := by
    have hfilt : (filtL l (pass2P (pass1 answer guess).1
        (guess.zip (pass1 answer guess).2))).count (l, '1') =
        (pass2P (pass1 answer guess).1
          (guess.zip (pass1 answer guess).2)).count (l, '1') :=
      List.count_filter (by simp)
    rw [← hfilt, hshape, List.count_append, List.count_replicate_self,
      List.count_replicate]
    have hbeq : (((l, l) : Char × Char) == (l, '1')) = false := by
      rw [beq_eq_false_iff_ne]
      exact hne
    rw [hbeq]
    simp
  have hsplit := count_split l answer guess hlg hlen
  have hmin : min ((pass1 answer guess).1.count (some l)) u0 ≤
      (pass1 answer guess).1.count (some l) := min_le_left _ _
  omega

/-- C2 witness: the scenario answer abbey, guess bbbbb with the letter b: at
most two (in fact exactly two) Exact or Present marks. -/
theorem C2_witness :
    marksFor 'b' ['b', 'b', 'b', 'b', 'b']
      (grade_word ['a', 'b', 'b', 'e', 'y'] ['b', 'b', 'b', 'b', 'b']).grade ≤
      (['a', 'b', 'b', 'e', 'y'] : List Char).count 'b' :=
  C2_duplicate_marks_bound _ _ _ (by decide) (by decide) (by decide)
    (by decide)

/-! ### C9: what symbols a grade string may contain -/

/-- C9 amended: every character of a grade string is the mark 2 (Exact), the
mark 1 (Present), or the original guessed letter of that position: Absent is
serialized as the guessed letter itself, not as a fixed third symbol. -/
theorem C9_grade_symbols (answer guess : List Char)
    (hlen : answer.length = guess.length) (hla : LowWord answer)
    (hlg : LowWord guess) :
    ∀ i, i < guess.length →
      (grade_word answer guess).grade.getD i '?' = '2' ∨
      (grade_word answer guess).grade.getD i '?' = '1' ∨
      (grade_word answer guess).grade.getD i '?' = guess.getD i '?' := by
  intro i hi
  have hM := master_main answer guess hla hlg
  have hgg := master_guess_grade hM
  rw [guess_eq_ghost answer guess hlen] at hgg
  have hgetD := forall2_getD '?' '?' hgg i hi
  rw [← grade_eq_ghost answer guess] at hgetD
  exact hgetD

/-- C9 witness: the first position of the grade of bbbbb against abbey. -/
theorem C9_witness :
    (grade_word ['a', 'b', 'b', 'e', 'y'] ['b', 'b', 'b', 'b', 'b']).grade.getD
        0 '?' = '2' ∨
    (grade_word ['a', 'b', 'b', 'e', 'y'] ['b', 'b', 'b', 'b', 'b']).grade.getD
        0 '?' = '1' ∨
    (grade_word ['a', 'b', 'b', 'e', 'y'] ['b', 'b', 'b', 'b', 'b']).grade.getD
        0 '?' = (['b', 'b', 'b', 'b', 'b'] : List Char).getD 0 '?' :=
  C9_grade_symbols _ _ (by decide) (by decide) (by decide) 0 (by decide)
